import Mathlib

/-!
Shallow embedding of the AI-orchestration core of the wp-html-snippet
repository (source: the AI service module, its stream decoding loop, and
the scoring orchestrator), together with proofs of the frozen claims.

Strings are modelled as `List Char`; the provider network transport is
abstracted as an oracle supplying response texts / outcomes, everything on
top of it (parsing, retrying, batching, the worker pool, stream cleaning
and decoding) is translated from the source.
-/

namespace WpSnippet

abbrev Chars := List Char

/-- JS whitespace (the characters relevant to `\s`, `.trim()` and JSON). -/
def isWs (c : Char) : Bool :=
  c = ' ' || c = '\t' || c = '\n' || c = '\r' || c = '\x0b' || c = '\x0c'

/-- JSON 'insignificant whitespace' as accepted by `JSON.parse`. -/
def isJsonWs (c : Char) : Bool :=
  c = ' ' || c = '\t' || c = '\n' || c = '\r'

/-- Model of JS `String.prototype.trim`. -/
def trimWs (s : Chars) : Chars :=
  ((s.dropWhile isWs).reverse.dropWhile isWs).reverse

/-- Fuel-indexed worker for `removeAll` (fuel bounds the scan length so the
definition is structurally recursive and kernel-evaluable). -/
def removeAllF (p : Chars) : Nat → Chars → Chars
  | _, [] => []
  | 0, s => s
  | fuel + 1, c :: cs =>
    if p.isPrefixOf (c :: cs) then removeAllF p fuel ((c :: cs).drop p.length)
    else c :: removeAllF p fuel cs

/-- Model of JS `text.replace(/pat/g, '')` for a literal pattern `p`:
delete every non-overlapping occurrence, scanning left to right. -/
def removeAll (p s : Chars) : Chars := removeAllF p s.length s

/-- `occurs p s`: does the literal pattern `p` occur as a contiguous
substring of `s`? -/
def occurs (p : Chars) : Chars → Bool
  | [] => p.isPrefixOf []
  | c :: cs => p.isPrefixOf (c :: cs) || occurs p cs

/-- Keep everything up to and including the last occurrence of `c`. -/
def takeThroughLast (c : Char) (l : Chars) : Chars :=
  (l.reverse.dropWhile (fun x => x != c)).reverse

/-- Model of the stage-2 regex `(\{[\s\S]*\}|\[[\s\S]*\])` of
`parseJsonResponse`: scanning left to right, the first position holding a
`{` with a later `}` (tried first) or a `[` with a later `]` starts the
match, which greedily extends to the last such closer in the string. -/
def extractJsonSpan : Chars → Option Chars
  | [] => none
  | c :: rest =>
    if c = '\x7b' ∧ rest.contains '\x7d' then
      some (c :: takeThroughLast '\x7d' rest)
    else if c = '[' ∧ rest.contains ']' then
      some (c :: takeThroughLast ']' rest)
    else extractJsonSpan rest

/-- JSON values as produced by `JSON.parse`.  Numbers are modelled as
integers: the repository's payloads (post ids, opportunity scores) are
integral, and the claims never exercise fractional numerics. -/
inductive Json where
  | null
  | bool (b : Bool)
  | num (n : Int)
  | str (s : Chars)
  | arr (elems : List Json)
  | obj (fields : List (Chars × Json))

def hexVal (c : Char) : Option Nat :=
  if c.isDigit then some (c.toNat - 48)
  else if 'a' ≤ c ∧ c ≤ 'f' then some (c.toNat - 87)
  else if 'A' ≤ c ∧ c ≤ 'F' then some (c.toNat - 55)
  else none

def escChar (c : Char) : Option Char :=
  if c = '"' then some '"'
  else if c = '\\' then some '\\'
  else if c = '/' then some '/'
  else if c = 'b' then some '\x08'
  else if c = 'f' then some '\x0c'
  else if c = 'n' then some '\n'
  else if c = 'r' then some '\r'
  else if c = 't' then some '\t'
  else none

/-- Parse the remainder of a JSON string literal (after the opening
quote), returning its contents and the rest of the input. -/
def parseStringRest : Chars → Option (Chars × Chars)
  | [] => none
  | c :: rest =>
    if c = '"' then some ([], rest)
    else if c = '\\' then
      match rest with
      | 'u' :: h1 :: h2 :: h3 :: h4 :: rest4 => do
        let a ← hexVal h1
        let b ← hexVal h2
        let cc ← hexVal h3
        let d ← hexVal h4
        let (s, r) ← parseStringRest rest4
        pure (Char.ofNat (((a * 16 + b) * 16 + cc) * 16 + d) :: s, r)
      | e :: rest1 => do
        let ch ← escChar e
        let (s, r) ← parseStringRest rest1
        pure (ch :: s, r)
      | [] => none
    else if c.toNat < 32 then none
    else (parseStringRest rest).map (fun p => (c :: p.1, p.2))

/-- Parse a JSON integer literal (sign, digit run, no leading zeros);
inputs carrying a fraction or exponent are outside the model. -/
def parseNumber (s : Chars) : Option (Int × Chars) :=
  let neg : Bool := s.head? = some '-'
  let s1 := if neg then s.drop 1 else s
  let digits := s1.takeWhile Char.isDigit
  let rest := s1.dropWhile Char.isDigit
  if digits = [] then none
  else if 1 < digits.length ∧ digits.head? = some '0' then none
  else
    match rest with
    | '.' :: _ => none
    | 'e' :: _ => none
    | 'E' :: _ => none
    | _ =>
      let n : Int := digits.foldl (fun acc c => acc * 10 + ((c.toNat : Int) - 48)) 0
      some (if neg then -n else n, rest)

/-- Fuel-indexed recursive-descent JSON value parser.  Lists are parsed by
re-entering the bracket production on the remainder after each comma; the
empty-continuation case is rejected so trailing commas fail exactly as in
`JSON.parse`. -/
def parseVal : Nat → Chars → Option (Json × Chars)
  | 0, _ => none
  | fuel + 1, s0 =>
    match s0.dropWhile isJsonWs with
    | [] => none
    | '\x7b' :: rest =>
      match rest.dropWhile isJsonWs with
      | '\x7d' :: r2 => some (.obj [], r2)
      | '"' :: rk => do
        let (key, r2) ← parseStringRest rk
        match r2.dropWhile isJsonWs with
        | ':' :: r4 => do
          let (v, r5) ← parseVal fuel r4
          match r5.dropWhile isJsonWs with
          | ',' :: r7 => do
            let (j2, r8) ← parseVal fuel ('\x7b' :: r7)
            match j2 with
            | .obj (f :: fs) => some (.obj ((key, v) :: f :: fs), r8)
            | _ => none
          | '\x7d' :: r7 => some (.obj [(key, v)], r7)
          | _ => none
        | _ => none
      | _ => none
    | '[' :: rest =>
      match rest.dropWhile isJsonWs with
      | ']' :: r2 => some (.arr [], r2)
      | r1 => do
        let (v, r2) ← parseVal fuel r1
        match r2.dropWhile isJsonWs with
        | ',' :: r4 => do
          let (j2, r5) ← parseVal fuel ('[' :: r4)
          match j2 with
          | .arr (e :: es) => some (.arr (v :: e :: es), r5)
          | _ => none
        | ']' :: r4 => some (.arr [v], r4)
        | _ => none
    | '"' :: rest => (parseStringRest rest).map (fun p => (.str p.1, p.2))
    | 't' :: rest =>
      if "rue".data.isPrefixOf rest then some (.bool true, rest.drop 3) else none
    | 'f' :: rest =>
      if "alse".data.isPrefixOf rest then some (.bool false, rest.drop 4) else none
    | 'n' :: rest =>
      if "ull".data.isPrefixOf rest then some (.null, rest.drop 3) else none
    | s => (parseNumber s).map (fun p => (.num p.1, p.2))

/-- Model of `JSON.parse`: parse one value, then require only whitespace
to remain. -/
def jsonParse (s : Chars) : Option Json :=
  match parseVal (2 * s.length + 8) s with
  | some (v, rest) => if rest.dropWhile isJsonWs = [] then some v else none
  | none => none

/-- The two failure shapes of `parseJsonResponse`:
`extractedInvalid` models the `Failed to parse JSON. Extracted structure
invalid: ...` throw (carrying the extracted substring whose parse failed),
`noStructure` models the final `Failed to parse JSON response. Raw text:
"..."` throw (carrying the 100-character-truncated raw-text diagnostic). -/
inductive ParseErr where
  | extractedInvalid (extracted : Chars)
  | noStructure (diag : Chars)

/-- Stage 0 of `parseJsonResponse`:
`text.replace(/```json/g, '').replace(/```/g, '').trim()`. -/
def stage0Clean (text : Chars) : Chars :=
  trimWs (removeAll "```".data (removeAll "```json".data text))

/-- `parseJsonResponse` (src/vite-env.d.ts:30-51): strip fence markers and
try a direct parse; on failure extract the first-opener-to-last-closer
span from the original text and parse that; on failure of both, fail with
the truncated-raw-text diagnostic. -/
def parseJsonResponse (text : Chars) : Except ParseErr Json :=
  match jsonParse (stage0Clean text) with
  | some v => .ok v
  | none =>
    match extractJsonSpan text with
    | some sub =>
      match jsonParse sub with
      | some v => .ok v
      | none => .error (.extractedInvalid sub)
    | none => .error (.noStructure (text.take 100))

/-! ## StreamCleaner (`cleanStreamChunk`, src/vite-env.d.ts:318-325) -/

def lowerC (c : Char) : Char :=
  if 'A' ≤ c ∧ c ≤ 'Z' then Char.ofNat (c.toNat + 32) else c

/-- Model of `chunk.replace(/^\s*PAT\s*/i, '')` for a literal pattern:
if (after leading whitespace) the pattern occurs case-insensitively, drop
the whitespace, the pattern and the whitespace following it; otherwise
leave the chunk unchanged. -/
def stripLeadingPat (pat : Chars) (s : Chars) : Chars :=
  let t := s.dropWhile isWs
  if (t.take pat.length).map lowerC == pat then (t.drop pat.length).dropWhile isWs
  else s

def fenceTicks : Chars := "```".data

/-- Model of `clean.replace(/```\s*$/, '')`: delete the first (hence, as
the remainder must be all whitespace, effectively the trailing) fence
marker anchored at the end of the chunk. -/
def stripTrailingFence : Chars → Chars
  | [] => []
  | c :: cs =>
    if fenceTicks.isPrefixOf (c :: cs) && ((c :: cs).drop 3).all isWs then []
    else c :: stripTrailingFence cs

/-- `cleanStreamChunk` from the source: strip a leading fence marker (with
optional `html` language tag) only on the first chunk, and a trailing
fence marker on every chunk. -/
def cleanStreamChunk (chunk : Chars) (isFirstChunk : Bool) : Chars :=
  let c1 :=
    if isFirstChunk then stripLeadingPat "```".data (stripLeadingPat "```html".data chunk)
    else chunk
  stripTrailingFence c1

/-! ## RetryExecutor (`withRetry`, src/vite-env.d.ts:54-67)

The fallible async operation is modelled as a function from the invocation
index to that invocation's outcome; `withRetryF` additionally returns the
total number of invocations performed (the index after the last call). -/

structure JsError where
  status : Option Nat
  message : Chars

/-- The source's non-retry classification:
`error.status === 401 || error.status === 400 ||
error.message?.includes('API key')`. -/
def nonRetryable (e : JsError) : Bool :=
  e.status == some 401 || e.status == some 400 || occurs "API key".data e.message

def withRetryF {α : Type} (op : Nat → Except JsError α) :
    Nat → Nat → Nat → Except JsError α × Nat
  | retries, delay, idx =>
    match op idx with
    | .ok v => (.ok v, idx + 1)
    | .error e =>
      match retries with
      | 0 => (.error e, idx + 1)
      | r + 1 =>
        if nonRetryable e then (.error e, idx + 1)
        else withRetryF op r (delay * 2) (idx + 1)

/-- `withRetry(fn)` with the source defaults `retries = 3`,
`delay = 1000`. -/
def withRetry {α : Type} (op : Nat → Except JsError α) : Except JsError α × Nat :=
  withRetryF op 3 1000 0

/-! ## `validateApiKey` (src/vite-env.d.ts:104-130)

One provider attempt is modelled as `op i`: `.ok b` when the transport
resolves (`b` is `response.ok`, and `true` for a successful Gemini SDK
call), `.error e` when the attempt throws (network failure / SDK error). -/

def validateApiKey (apiKey : Chars) (op : Nat → Except JsError Bool) : Bool × Nat :=
  if apiKey.isEmpty then (false, 0)
  else
    match withRetry op with
    | (.ok b, n) => (b, n)
    | (.error _, n) => (false, n)

/-! ## ScoringOrchestrator (`getOpportunityScores`, src/vite-env.d.ts:133-240) -/

def SCORE_BATCH_SIZE : Nat := 8
def MAX_CONCURRENT_REQUESTS : Nat := 6

structure WordPressPost where
  id : Int
  titleRendered : Chars
deriving DecidableEq

/-- Fuel-indexed worker for `makeBatches` (the fuel bounds the number of
slices, keeping the definition structurally recursive). -/
def makeBatchesF {α : Type} : Nat → List α → List (List α)
  | _, [] => []
  | 0, _ => []
  | fuel + 1, l => l.take SCORE_BATCH_SIZE :: makeBatchesF fuel (l.drop SCORE_BATCH_SIZE)

/-- The batch-partition loop of `getOpportunityScores`
(`for (let i = 0; i < posts.length; i += SCORE_BATCH_SIZE) push(slice)`). -/
def makeBatches {α : Type} (posts : List α) : List (List α) :=
  makeBatchesF posts.length posts

/-- JS truthiness on JSON values. -/
def jsTruthy : Json → Bool
  | .null => false
  | .bool b => b
  | .num n => n != 0
  | .str s => !s.isEmpty
  | .arr _ => true
  | .obj _ => true

def Json.getField (j : Json) (key : Chars) : Option Json :=
  match j with
  | .obj fields => fields.lookup key
  | _ => none

def typeErrorMsg : Chars := "Cannot read properties of null".data

/-- The message of the error object thrown by `parseJsonResponse`
(neither message contains the literal `API key`, so both classify as
retryable in `withRetry`, exactly as in the source). -/
def parseErrMsg : ParseErr → Chars
  | .extractedInvalid _ => "Failed to parse JSON. Extracted structure invalid".data
  | .noStructure _ => "Failed to parse JSON response".data

def errOfParse (pe : ParseErr) : JsError := ⟨none, parseErrMsg pe⟩

/-- Model of `parsed.posts || []` applied to the parse result: accessing
`.posts` on `null` throws; a missing or falsy `posts` field yields `[]`;
otherwise the field's value flows through unvalidated. -/
def extractScores (parsed : Json) : Except JsError Json :=
  match parsed with
  | .null => .error ⟨none, typeErrorMsg⟩
  | _ =>
    match parsed.getField "posts".data with
    | some v => if jsTruthy v then .ok v else .ok (.arr [])
    | none => .ok (.arr [])

/-- One attempt of a batch's scoring call: provider transport (abstracted
as the oracle `providerText`), then `parseJsonResponse`, then
`parsed.posts || []`. -/
def batchAttempt (providerText : Nat → Except JsError Chars) (i : Nat) :
    Except JsError Json :=
  match providerText i with
  | .error e => .error e
  | .ok text =>
    match parseJsonResponse text with
    | .error pe => .error (errOfParse pe)
    | .ok parsed => extractScores parsed

/-- `processBatch` (src/vite-env.d.ts:151-220): the batch call wrapped in
`withRetry`; the surrounding try/catch makes the result a value, never a
rejection. -/
def processBatch (providerText : Nat → Except JsError Chars) : Except JsError Json :=
  (withRetry (batchAttempt providerText)).fst

/-- Observable events of one orchestrator run: a batch entering the active
set, a successful batch's `onProgress(batchScores)` call, a failed batch
being logged and dropped. -/
inductive OrchEvent where
  | started (batch : List WordPressPost)
  | progressed (batch : List WordPressPost) (scores : Json)
  | failed (batch : List WordPressPost)

structure OrchState where
  queue : List (List WordPressPost)
  active : List (List WordPressPost)
  events : List OrchEvent

/-- The inner `while (queue.length > 0 && activeWorkers.size < MAX_CONCURRENT_REQUESTS)`
top-up loop, one shift per step. -/
def topUpF : Nat → OrchState → OrchState
  | 0, s => s
  | fuel + 1, s =>
    match s.queue with
    | [] => s
    | b :: rest =>
      if s.active.length < MAX_CONCURRENT_REQUESTS then
        topUpF fuel ⟨rest, s.active ++ [b], s.events ++ [.started b]⟩
      else s

def topUp (s : OrchState) : OrchState := topUpF s.queue.length s

/-- The event a batch's completion appends: `onProgress` with the parsed
scores on success, a logged drop on failure. -/
def completionEvent (proc : List WordPressPost → Except JsError Json)
    (b : List WordPressPost) : OrchEvent :=
  match proc b with
  | .ok scores => .progressed b scores
  | .error _ => .failed b

/-- `await Promise.race(activeWorkers)`: some in-flight batch (chosen by
the scheduling oracle `k`) finishes and removes itself from the active
set. -/
def completeOne (proc : List WordPressPost → Except JsError Json) (k : Nat)
    (s : OrchState) : OrchState :=
  match s.active with
  | [] => s
  | _ :: _ =>
    let i := k % s.active.length
    let b := s.active.getD i []
    ⟨s.queue, s.active.eraseIdx i, s.events ++ [completionEvent proc b]⟩

/-- The outer `while (queue.length > 0 || activeWorkers.size > 0)` loop:
top up the active set, then wait for one completion. -/
def runLoopF (proc : List WordPressPost → Except JsError Json)
    (sched : Nat → Nat) : Nat → OrchState → OrchState
  | 0, s => s
  | fuel + 1, s =>
    if s.queue.isEmpty && s.active.isEmpty then s
    else runLoopF proc sched fuel (completeOne proc (sched fuel) (topUp s))

/-- `getOpportunityScores` (src/vite-env.d.ts:139-240): partition into
batches of 8 and drain them through the bounded worker pool.  The provider
transport is the oracle `providerText` (batch → attempt index → raw
response text or thrown error); `sched` resolves which in-flight batch the
`Promise.race` settles on. -/
def getOpportunityScores (posts : List WordPressPost)
    (providerText : List WordPressPost → Nat → Except JsError Chars)
    (sched : Nat → Nat) : OrchState :=
  let batches := makeBatches posts
  runLoopF (fun b => processBatch (providerText b)) sched batches.length ⟨batches, [], []⟩

/-! ## Stream decoding (`generateStream`, src/vite-env.d.ts:327-431)

The fetch/reader transport is abstracted as the list of decoded texts the
reader delivers (`reads`); everything from `buffer += decoder.decode(...)`
on is translated from the source loop. -/

/-- Model of `lines = buffer.split('\n'); buffer = lines.pop()`: the
complete lines and the retained trailing fragment. -/
def splitParts : Chars → (List Chars × Chars)
  | [] => ([], [])
  | c :: rest =>
    let (ls, buf) := splitParts rest
    if c = '\n' then ([] :: ls, buf)
    else
      match ls with
      | l :: ls2 => ((c :: l) :: ls2, buf)
      | [] => ([], c :: buf)

def dataMark : Chars := "data: ".data

/-- Per-provider extraction of the incremental text delta from one parsed
data-line envelope (`content_block_delta`/`delta.text` for Anthropic,
`choices[0].delta.content` otherwise); any missing piece yields `none`
(skipped, as the surrounding try/catch swallows the access failure). -/
def extractDelta (anthropic : Bool) (parsed : Json) : Option Chars :=
  if anthropic then
    match parsed.getField "type".data with
    | some (.str t) =>
      if t == "content_block_delta".data then
        match parsed.getField "delta".data with
        | some d =>
          match d.getField "text".data with
          | some (.str s) => some s
          | _ => none
        | none => none
      else none
    | _ => none
  else
    match parsed.getField "choices".data with
    | some (.arr (c0 :: _)) =>
      match c0.getField "delta".data with
      | some d =>
        match d.getField "content".data with
        | some (.str s) => some s
        | _ => none
      | none => none
    | _ => none

/-- What one iteration of the `for (const line of lines)` body does with
one line: nothing (`continue`), terminate the stream (`[DONE]` sentinel),
or yield a cleaned chunk. -/
inductive LineStep where
  | skip
  | done
  | yield (chunk : Chars)

/-- One iteration of the `for (const line of lines)` body: skip non-data
lines, stop on the `[DONE]` sentinel, skip data lines whose JSON is
malformed or which carry no (truthy) delta, otherwise clean the delta and
yield it when the cleaned text is non-empty. -/
def procLine (anthropic : Bool) (l : Chars) (fst : Bool) : LineStep :=
  if !(dataMark.isPrefixOf l) then .skip
  else
    let d := l.drop 6
    if trimWs d == "[DONE]".data then .done
    else
      match jsonParse d with
      | none => .skip
      | some parsed =>
        match extractDelta anthropic parsed with
        | none => .skip
        | some t =>
          if t.isEmpty then .skip
          else
            let c := cleanStreamChunk t fst
            if c.isEmpty then .skip else .yield c

/-- The `for (const line of lines)` loop threaded over a list of complete
lines.  Returns the yielded chunks, the updated first-chunk flag and
whether the `[DONE]` sentinel ended the stream. -/
def procLines (anthropic : Bool) : List Chars → Bool → (List Chars × Bool × Bool)
  | [], fst => ([], fst, false)
  | l :: rest, fst =>
    match procLine anthropic l fst with
    | .skip => procLines anthropic rest fst
    | .done => ([], fst, true)
    | .yield c =>
      let (out, fst2, dn) := procLines anthropic rest false
      (c :: out, fst2, dn)

/-- The `while (true) { read(); split; process lines }` loop; `buffer`
carries the retained incomplete line, and a `[DONE]` sentinel returns
immediately, abandoning the remaining reads. -/
def generateStreamF (anthropic : Bool) : Chars → Bool → List Chars → List Chars
  | _, _, [] => []
  | buffer, fst, r :: rest =>
    let (ls, buf2) := splitParts (buffer ++ r)
    let (out, fst2, dn) := procLines anthropic ls fst
    if dn then out else out ++ generateStreamF anthropic buf2 fst2 rest

/-- The yielded chunk sequence of `generateStream` for the line-oriented
streaming providers, as a function of the reader's delivered texts. -/
def generateStream (anthropic : Bool) (reads : List Chars) : List Chars :=
  generateStreamF anthropic [] true reads

/-- The Gemini branch of `generateStream` (src/vite-env.d.ts:355-371): the
SDK delivers text chunks directly; each is cleaned and yielded when
non-empty. -/
def geminiStream : List Chars → Bool → List Chars
  | [], _ => []
  | c :: rest, fst =>
    let t := cleanStreamChunk c fst
    if t.isEmpty then geminiStream rest fst
    else t :: geminiStream rest false

/-! ## Lemmas about the batch partition -/

lemma makeBatchesF_flatten {α : Type} (fuel : Nat) (l : List α)
    (h : l.length ≤ fuel) : (makeBatchesF fuel l).flatten = l := by
  induction fuel generalizing l with
  | zero =>
    have : l = [] := List.eq_nil_of_length_eq_zero (Nat.le_zero.mp h)
    subst this; rfl
  | succ fuel ih =>
    cases l with
    | nil => rfl
    | cons x xs =>
      have hlen : ((x :: xs).drop SCORE_BATCH_SIZE).length ≤ fuel := by
        simp only [SCORE_BATCH_SIZE, List.length_drop, List.length_cons] at *
        omega
      simp only [makeBatchesF, List.flatten_cons, ih _ hlen, List.take_append_drop]

lemma makeBatchesF_length {α : Type} (fuel : Nat) (l : List α)
    (h : l.length ≤ fuel) :
    (makeBatchesF fuel l).length = (l.length + 7) / 8 := by
  induction fuel generalizing l with
  | zero =>
    have : l = [] := List.eq_nil_of_length_eq_zero (Nat.le_zero.mp h)
    subst this; simp [makeBatchesF]
  | succ fuel ih =>
    cases l with
    | nil => simp [makeBatchesF]
    | cons x xs =>
      have hlen : ((x :: xs).drop SCORE_BATCH_SIZE).length ≤ fuel := by
        simp only [SCORE_BATCH_SIZE, List.length_drop, List.length_cons] at *
        omega
      have hrec := ih _ hlen
      simp only [SCORE_BATCH_SIZE, List.length_drop, List.length_cons] at hrec
      simp only [makeBatchesF, SCORE_BATCH_SIZE, List.length_cons, hrec,
        List.length_drop]
      set n := xs.length + 1 with hn
      have hpos : 1 ≤ n := by omega
      have hsub : (n - 8 + 7) / 8 = (n - 1) / 8 := by
        rcases le_or_lt 8 n with h8 | h8
        · congr 1; omega
        · rw [Nat.div_eq_of_lt (by omega), Nat.div_eq_of_lt (by omega)]
      rw [hsub]
      have h7 : n + 7 = (n - 1) + 8 := by omega
      rw [h7, Nat.add_div_right _ (by norm_num)]

lemma makeBatches_flatten {α : Type} (l : List α) :
    (makeBatches l).flatten = l :=
  makeBatchesF_flatten l.length l (Nat.le_refl _)

lemma makeBatches_length {α : Type} (l : List α) :
    (makeBatches l).length = (l.length + 7) / 8 :=
  makeBatchesF_length l.length l (Nat.le_refl _)

lemma mem_of_mem_makeBatches {α : Type} {l : List α} {b : List α}
    (hb : b ∈ makeBatches l) {x : α} (hx : x ∈ b) : x ∈ l := by
  rw [← makeBatches_flatten l]
  exact List.mem_flatten.mpr ⟨b, hb, hx⟩

/-- C2: the partition of the post collection into batches of 8 yields
`⌈N/8⌉` batches whose concatenation in batch order is exactly the input
collection (so nothing is dropped and batch order is input order), and —
for a duplicate-free collection — no post occurs in two batches. -/
theorem getOpportunityScores_batches_partition (posts : List WordPressPost) :
    (makeBatches posts).flatten = posts ∧
    (makeBatches posts).length = (posts.length + 7) / 8 ∧
    (posts.Nodup → (makeBatches posts).Pairwise List.Disjoint) := by
  refine ⟨makeBatches_flatten posts, makeBatches_length posts, fun hnd => ?_⟩
  have : (makeBatches posts).flatten.Nodup := by
    rw [makeBatches_flatten]; exact hnd
  exact (List.nodup_flatten.mp this).2

/-- Witness for C2 at a concrete 9-post collection: two batches, of sizes
8 and 1, concatenating to the input. -/
theorem getOpportunityScores_batches_partition_witness :
    (makeBatches ((List.range 9).map (fun i => WordPressPost.mk i []))).flatten
        = (List.range 9).map (fun i => WordPressPost.mk i []) ∧
    (makeBatches ((List.range 9).map (fun i => WordPressPost.mk i []))).length = 2 ∧
    (makeBatches ((List.range 9).map (fun i => WordPressPost.mk i []))).Pairwise
      List.Disjoint := by
  have h := getOpportunityScores_batches_partition
    ((List.range 9).map (fun i => WordPressPost.mk i []))
  refine ⟨h.1, ?_, h.2.2 (by decide)⟩
  rw [h.2.1]; rfl

/-! ## C3: RetryExecutor -/

/-- C3: with the default `retries = 3`, an operation that fails twice with
retryable errors and then succeeds returns the success value after exactly
3 invocations, and an operation that always fails with a non-retryable
error (auth/bad-request status or an `API key` message) is re-raised after
exactly 1 invocation. -/
theorem withRetry_spec :
    (∀ (α : Type) (op : Nat → Except JsError α) (e0 e1 : JsError) (v : α),
      op 0 = .error e0 → op 1 = .error e1 → op 2 = .ok v →
      nonRetryable e0 = false → nonRetryable e1 = false →
      withRetry op = (.ok v, 3)) ∧
    (∀ (α : Type) (op : Nat → Except JsError α) (e : JsError),
      (∀ i, op i = .error e) → nonRetryable e = true →
      withRetry op = (.error e, 1)) := by
  constructor
  · intro α op e0 e1 v h0 h1 h2 hnr0 hnr1
    simp [withRetry, withRetryF, h0, h1, h2, hnr0, hnr1]
  · intro α op e hop hnr
    simp [withRetry, withRetryF, hop 0, hnr]

/-- Witness for C3: a concrete operation failing twice with a retryable
(500) error then succeeding is invoked 3 times and succeeds; a concrete
operation always failing with a 401 is invoked once and re-raises. -/
theorem withRetry_spec_witness :
    withRetry (fun i => if i < 2 then .error ⟨some 500, []⟩ else .ok (7 : Nat))
        = (.ok 7, 3) ∧
    withRetry (fun _ : Nat => (.error ⟨some 401, []⟩ : Except JsError Nat))
        = (.error ⟨some 401, []⟩, 1) := by
  constructor
  · exact withRetry_spec.1 Nat _ ⟨some 500, []⟩ ⟨some 500, []⟩ 7 rfl rfl rfl rfl rfl
  · exact withRetry_spec.2 Nat _ ⟨some 401, []⟩ (fun _ => rfl) rfl

/-! ## C9: `validateApiKey` -/

/-- C9: `validateApiKey` always resolves to a boolean.  When every
provider call yields an HTTP 401 — whether delivered as a resolved
response with `ok = false` (the fetch providers) or as a thrown error with
status 401 (the SDK provider) — it resolves to `false` after exactly one
provider call, consuming no retry; and whenever the wrapped call chain
ends in an error, that error is swallowed into `false` rather than
propagated. -/
theorem validateApiKey_spec :
    (∀ (apiKey : Chars) (op : Nat → Except JsError Bool),
      apiKey ≠ [] → (∀ i, op i = .ok false) →
      validateApiKey apiKey op = (false, 1)) ∧
    (∀ (apiKey : Chars) (op : Nat → Except JsError Bool) (e : JsError),
      apiKey ≠ [] → (∀ i, op i = .error e) → e.status = some 401 →
      validateApiKey apiKey op = (false, 1)) ∧
    (∀ (apiKey : Chars) (op : Nat → Except JsError Bool) (e : JsError),
      (withRetry op).fst = .error e →
      (validateApiKey apiKey op).fst = false) := by
  refine ⟨?_, ?_, ?_⟩
  · intro apiKey op hk hop
    have hne : apiKey.isEmpty = false := by cases apiKey with
      | nil => exact absurd rfl hk
      | cons c cs => rfl
    simp [validateApiKey, hne, withRetry, withRetryF, hop 0]
  · intro apiKey op e hk hop hst
    have hne : apiKey.isEmpty = false := by cases apiKey with
      | nil => exact absurd rfl hk
      | cons c cs => rfl
    have hnr : nonRetryable e = true := by simp [nonRetryable, hst]
    simp [validateApiKey, hne, withRetry, withRetryF, hop 0, hnr]
  · intro apiKey op e herr
    by_cases hk : apiKey.isEmpty
    · simp [validateApiKey, hk]
    · rcases hwr : withRetry op with ⟨res, n⟩
      cases res with
      | ok b =>
        rw [hwr] at herr
        exact absurd herr (by simp)
      | error e2 =>
        simp [validateApiKey, hk, hwr]

/-- Witness for C9: a provider answering every call with a resolved 401
response gives `(false, 1)`; an SDK provider throwing a 401 error gives
`(false, 1)`; a provider whose transport always fails resolves to `false`
(after exhausting retries) instead of propagating the failure. -/
theorem validateApiKey_spec_witness :
    validateApiKey "k".data (fun _ => .ok false) = (false, 1) ∧
    validateApiKey "k".data (fun _ => .error ⟨some 401, []⟩) = (false, 1) ∧
    (validateApiKey "k".data (fun _ => .error ⟨some 500, []⟩)).fst = false := by
  refine ⟨?_, ?_, ?_⟩
  · exact validateApiKey_spec.1 "k".data _ (by simp) (fun _ => rfl)
  · exact validateApiKey_spec.2.1 "k".data _ ⟨some 401, []⟩ (by simp) (fun _ => rfl) rfl
  · exact validateApiKey_spec.2.2 "k".data _ ⟨some 500, []⟩ rfl

/-! ## C6: StreamCleaner -/

lemma stripTrailingFence_of_not_occurs (s : Chars)
    (h : occurs fenceTicks s = false) : stripTrailingFence s = s := by
  induction s with
  | nil => rfl
  | cons c cs ih =>
    rw [occurs, Bool.or_eq_false_iff] at h
    rw [stripTrailingFence, if_neg (by simp [h.1]), ih h.2]

/-- C6: `clean("```html\n<div>", isFirst := true) = "<div>"`;
`clean("</div>```", isFirst := false) = "</div>"`; a chunk containing no
fence marker is returned unchanged when the first-chunk flag is unset; and
a leading fence marker is not stripped when the flag is unset. -/
theorem cleanStreamChunk_spec :
    cleanStreamChunk "```html\n<div>".data true = "<div>".data ∧
    cleanStreamChunk "</div>```".data false = "</div>".data ∧
    (∀ chunk : Chars, occurs fenceTicks chunk = false →
      cleanStreamChunk chunk false = chunk) ∧
    cleanStreamChunk "```html\n<div>".data false = "```html\n<div>".data := by
  refine ⟨rfl, rfl, fun chunk h => ?_, rfl⟩
  show stripTrailingFence chunk = chunk
  exact stripTrailingFence_of_not_occurs chunk h

/-- Witness for C6: the no-fence-marker conjunct evaluated on the spec's
concrete example `"<span>mid</span>"`. -/
theorem cleanStreamChunk_spec_witness :
    cleanStreamChunk "<span>mid</span>".data false = "<span>mid</span>".data :=
  cleanStreamChunk_spec.2.2.1 "<span>mid</span>".data rfl

/-! ## C1: ResponseNormalizer -/

/-- The backtick character (written via its code point). -/
def tickChar : Char := Char.ofNat 96

lemma removeAllF_nil (p : Chars) (fuel : Nat) : removeAllF p fuel [] = [] := by
  cases fuel <;> rfl

lemma removeAllF_succ_cons (p : Chars) (f : Nat) (c : Char) (cs : Chars) :
    removeAllF p (f + 1) (c :: cs) =
      if p.isPrefixOf (c :: cs) then removeAllF p f ((c :: cs).drop p.length)
      else c :: removeAllF p f cs := rfl

lemma removeAllF_append_self (p t : Chars) (fuel : Nat) (hp : p ≠ [])
    (hf : 1 ≤ fuel) :
    removeAllF p fuel (p ++ t) = removeAllF p (fuel - 1) t := by
  obtain ⟨f, rfl⟩ : ∃ f, fuel = f + 1 := ⟨fuel - 1, by omega⟩
  cases p with
  | nil => exact absurd rfl hp
  | cons c cs =>
    have hpre : (c :: cs).isPrefixOf ((c :: cs) ++ t) = true :=
      List.isPrefixOf_iff_prefix.mpr (List.prefix_append _ _)
    rw [List.cons_append, removeAllF_succ_cons, ← List.cons_append, if_pos hpre,
      List.drop_left]
    simp

lemma removeAllF_skip (p : Chars) (hp : p.head? = some tickChar) :
    ∀ (l₁ : Chars) (fuel : Nat) (l₂ : Chars),
      (∀ c ∈ l₁, c ≠ tickChar) → l₁.length ≤ fuel →
      removeAllF p fuel (l₁ ++ l₂) = l₁ ++ removeAllF p (fuel - l₁.length) l₂ := by
  intro l₁
  induction l₁ with
  | nil => intro fuel l₂ _ _; simp
  | cons c l₁ ih =>
    intro fuel l₂ hfree hlen
    obtain ⟨f, rfl⟩ : ∃ f, fuel = f + 1 :=
      ⟨fuel - 1, by simp only [List.length_cons] at hlen; omega⟩
    have hcne : c ≠ tickChar := hfree c (by simp)
    have hnp : p.isPrefixOf (c :: (l₁ ++ l₂)) = false := by
      cases p with
      | nil => simp at hp
      | cons q qs =>
        have hq : q = tickChar := by simpa using hp
        subst hq
        simp only [List.isPrefixOf, Bool.and_eq_false_iff, beq_eq_false_iff_ne]
        exact Or.inl (fun h => hcne h.symm)
    rw [List.cons_append, removeAllF_succ_cons, hnp]
    simp only [Bool.false_eq_true, if_false]
    have harith : f + 1 - (c :: l₁).length = f - l₁.length := by
      simp only [List.length_cons]; omega
    rw [harith, List.cons_append]
    exact congrArg (c :: ·)
      (ih f l₂ (fun x hx => hfree x (by simp [hx]))
        (by simp only [List.length_cons] at hlen; omega))

lemma removeAllF_short (p : Chars) :
    ∀ (fuel : Nat) (s : Chars), s.length < p.length → removeAllF p fuel s = s := by
  intro fuel
  induction fuel with
  | zero => intro s _; cases s <;> rfl
  | succ f ih =>
    intro s h
    cases s with
    | nil => rfl
    | cons c cs =>
      have hnp : p.isPrefixOf (c :: cs) = false := by
        cases hval : p.isPrefixOf (c :: cs) with
        | false => rfl
        | true =>
          have := (List.isPrefixOf_iff_prefix.mp hval).length_le
          omega
      rw [removeAllF_succ_cons, hnp]
      simp only [Bool.false_eq_true, if_false]
      rw [ih cs (by simp only [List.length_cons] at h; omega)]

lemma trimWs_cons_ws (c : Char) (hc : isWs c = true) (s : Chars) :
    trimWs (c :: s) = trimWs s := by
  unfold trimWs
  rw [List.dropWhile_cons, if_pos hc]

lemma trimWs_append_ws (s : Chars) (c : Char) (hc : isWs c = true) :
    trimWs (s ++ [c]) = trimWs s := by
  unfold trimWs
  rw [List.dropWhile_append]
  by_cases h : (s.dropWhile isWs).isEmpty
  · rw [if_pos h]
    have hemp : s.dropWhile isWs = [] := List.isEmpty_iff.mp h
    rw [hemp]
    simp [List.dropWhile_cons, hc]
  · rw [if_neg h, List.reverse_append]
    simp [List.dropWhile_cons, hc]

lemma wrap_eq (j : Chars) :
    "```json\n".data ++ j ++ "\n```".data
      = "```json".data ++ (('\n' :: (j ++ ['\n'])) ++ "```".data) := by
  have h1 : "```json\n".data = "```json".data ++ ['\n'] := rfl
  have h2 : "\n```".data = ['\n'] ++ "```".data := rfl
  rw [h1, h2]
  simp [List.append_assoc]

/-- Stage 0 of `parseJsonResponse` on a fence-wrapped JSON text that
itself contains no backtick: both global replacements delete exactly the
fence markers, and the trim leaves the embedded text trimmed. -/
lemma stage0Clean_fenced (j : Chars) (hj : ∀ c ∈ j, c ≠ tickChar) :
    stage0Clean ("```json\n".data ++ j ++ "\n```".data) = trimWs j := by
  have hfree : ∀ c ∈ '\n' :: (j ++ ['\n']), c ≠ tickChar := by
    intro c hc
    rcases List.mem_cons.mp hc with h | h
    · subst h; decide
    · rcases List.mem_append.mp h with h | h
      · exact hj c h
      · have : c = '\n' := by simpa using h
        subst this; decide
  have h7 : ("```json".data).length = 7 := rfl
  have h3 : ("```".data).length = 3 := rfl
  have hinner : removeAll "```json".data
      ("```json".data ++ (('\n' :: (j ++ ['\n'])) ++ "```".data))
        = ('\n' :: (j ++ ['\n'])) ++ "```".data := by
    rw [removeAll]
    rw [removeAllF_append_self _ _ _ (by decide)
      (by simp only [List.length_append, h7]; omega)]
    rw [removeAllF_skip "```json".data (by decide) _ _ _ hfree
      (by simp only [List.length_append, List.length_cons, h7, h3]; omega)]
    rw [removeAllF_short "```json".data _ "```".data (by decide)]
  have houter : removeAll "```".data (('\n' :: (j ++ ['\n'])) ++ "```".data)
      = '\n' :: (j ++ ['\n']) := by
    rw [removeAll]
    rw [removeAllF_skip "```".data (by decide) _ _ _ hfree
      (by simp only [List.length_append, List.length_cons, h3]; omega)]
    have hf3 : (('\n' :: (j ++ ['\n'])) ++ "```".data).length
        - ('\n' :: (j ++ ['\n'])).length = 3 := by
      simp only [List.length_append, List.length_cons, h3]; omega
    rw [hf3]
    have hrm : removeAllF "```".data 3 "```".data = [] := rfl
    rw [hrm, List.append_nil]
  rw [stage0Clean, wrap_eq, hinner, houter,
    trimWs_cons_ws _ (by decide), trimWs_append_ws _ _ (by decide)]

/-- Characters the stage-2 regex treats as span delimiters. -/
def isBrkt (c : Char) : Bool :=
  c = '\x7b' || c = '\x7d' || c = '[' || c = ']'

lemma takeThroughLast_append (jrest p2 : Chars)
    (hp2 : ∀ c ∈ p2, c ≠ '\x7d') (hlast : jrest.getLast? = some '\x7d') :
    takeThroughLast '\x7d' (jrest ++ p2) = jrest := by
  unfold takeThroughLast
  rw [List.reverse_append]
  rw [List.dropWhile_append]
  have h1 : p2.reverse.dropWhile (fun x => x != '\x7d') = [] := by
    rw [List.dropWhile_eq_nil_iff]
    intro x hx
    simp only [bne_iff_ne, ne_eq, Decidable.not_not]
    by_contra hne
    exact hp2 x (List.mem_reverse.mp hx) (by simpa using hne)
  rw [h1]
  simp only [List.isEmpty_nil, if_true]
  have hhead : jrest.reverse.head? = some '\x7d' := by
    rw [List.head?_reverse]; exact hlast
  cases hrev : jrest.reverse with
  | nil => rw [hrev] at hhead; simp at hhead
  | cons a t =>
    rw [hrev] at hhead
    have ha : a = '\x7d' := by simpa using hhead
    subst ha
    rw [List.dropWhile_cons, if_neg (by simp)]
    rw [← hrev, List.reverse_reverse]

lemma extractJsonSpan_embedded :
    ∀ (p1 : Chars), (∀ c ∈ p1, isBrkt c = false) →
    ∀ (jrest p2 : Chars), (∀ c ∈ p2, isBrkt c = false) →
    jrest.getLast? = some '\x7d' →
    extractJsonSpan (p1 ++ ('\x7b' :: jrest) ++ p2) = some ('\x7b' :: jrest) := by
  intro p1 hp1
  induction p1 with
  | nil =>
    intro jrest p2 hp2 hlast
    have hmem : '\x7d' ∈ jrest ++ p2 :=
      List.mem_append.mpr (Or.inl (List.mem_of_getLast?_eq_some hlast))
    have hcont : (jrest ++ p2).contains '\x7d' = true := by
      simp [List.contains, List.elem_iff, hmem]
    have htk : takeThroughLast '\x7d' (jrest ++ p2) = jrest :=
      takeThroughLast_append jrest p2
        (fun c hc => by
          have hb := hp2 c hc
          simp only [isBrkt, Bool.or_eq_false_iff, decide_eq_false_iff_not] at hb
          exact hb.1.1.2) hlast
    simp only [List.nil_append, List.cons_append, extractJsonSpan, hcont,
      List.append_eq, htk, and_true, if_pos trivial, reduceIte]
  | cons c p1 ih =>
    intro jrest p2 hp2 hlast
    have hc := hp1 c (by simp)
    simp only [isBrkt, Bool.or_eq_false_iff, decide_eq_false_iff_not] at hc
    simp only [List.cons_append, extractJsonSpan]
    rw [if_neg (fun h => hc.1.1.1 h.1), if_neg (fun h => hc.1.2 h.1)]
    exact ih (fun x hx => hp1 x (by simp [hx])) jrest p2 hp2 hlast

/-- C1 counterexample: `"The answer is 5"` is the valid JSON value `5`
surrounded by conversational prose, yet `parseJsonResponse` raises a
`ParseError` instead of recovering `5` — the claim's universal recovery
statement fails for scalar JSON values embedded in prose. -/
theorem parseJsonResponse_prose_scalar_counterexample :
    "The answer is 5".data = "The answer is ".data ++ "5".data ∧
    jsonParse "5".data = some (.num 5) ∧
    parseJsonResponse "The answer is 5".data
      = .error (.noStructure "The answer is 5".data) :=
  ⟨rfl, rfl, rfl⟩

/-- C1 (amended): (i) a valid JSON text containing no backtick and
wrapped in `json`-tagged fence markers is recovered exactly; (ii) a valid
JSON object whose body ends in `}` and which is surrounded by prose free
of brace/bracket characters is recovered exactly whenever the direct
parse of the de-fenced text fails; (iii) when the direct parse fails and
no brace/bracket span exists at all, the result is a `ParseError`
carrying the ≤100-character truncated prefix of the raw text. -/
theorem parseJsonResponse_amended :
    (∀ (j : Chars) (v : Json), (∀ c ∈ j, c ≠ tickChar) →
      jsonParse (trimWs j) = some v →
      parseJsonResponse ("```json\n".data ++ j ++ "\n```".data) = .ok v) ∧
    (∀ (p1 jrest p2 : Chars) (v : Json),
      (∀ c ∈ p1, isBrkt c = false) → (∀ c ∈ p2, isBrkt c = false) →
      jrest.getLast? = some '\x7d' →
      jsonParse (stage0Clean (p1 ++ ('\x7b' :: jrest) ++ p2)) = none →
      jsonParse ('\x7b' :: jrest) = some v →
      parseJsonResponse (p1 ++ ('\x7b' :: jrest) ++ p2) = .ok v) ∧
    (∀ (text : Chars),
      jsonParse (stage0Clean text) = none →
      extractJsonSpan text = none →
      parseJsonResponse text = .error (.noStructure (text.take 100)) ∧
      (text.take 100).length ≤ 100 ∧
      text.take 100 ++ text.drop 100 = text) := by
  refine ⟨?_, ?_, ?_⟩
  · intro j v hj hv
    rw [parseJsonResponse, stage0Clean_fenced j hj, hv]
  · intro p1 jrest p2 v hp1 hp2 hlast hfail hv
    rw [parseJsonResponse, hfail, extractJsonSpan_embedded p1 hp1 jrest p2 hp2 hlast]
    simp only [hv]
  · intro text h1 h2
    exact ⟨by rw [parseJsonResponse, h1, h2], List.length_take_le 100 text,
      List.take_append_drop _ _⟩

/-- Witness for C1's amended statement: each conjunct applied at a
concrete input — a fenced object, a prose-surrounded object, and a text
with no recoverable structure. -/
theorem parseJsonResponse_amended_witness :
    parseJsonResponse ("```json\n".data ++ "\x7b\"a\": 1\x7d".data ++ "\n```".data)
      = .ok (.obj [("a".data, .num 1)]) ∧
    parseJsonResponse ("Sure: ".data ++ ('\x7b' :: "\"a\": 1\x7d".data) ++ " enjoy".data)
      = .ok (.obj [("a".data, .num 1)]) ∧
    parseJsonResponse "no structure here".data
      = .error (.noStructure "no structure here".data) := by
  refine ⟨?_, ?_, ?_⟩
  · exact parseJsonResponse_amended.1 "\x7b\"a\": 1\x7d".data (.obj [("a".data, .num 1)])
      (by decide) rfl
  · exact parseJsonResponse_amended.2.1 "Sure: ".data "\"a\": 1\x7d".data " enjoy".data
      (.obj [("a".data, .num 1)]) (by decide) (by decide) rfl rfl rfl
  · exact (parseJsonResponse_amended.2.2 "no structure here".data rfl rfl).1

/-! ## C10: yielded chunks are non-empty; fence-only first chunks do not
consume the first-chunk flag -/

lemma procLine_yield_ne_nil (anth : Bool) (l : Chars) (fst : Bool) (c : Chars)
    (h : procLine anth l fst = .yield c) : c ≠ [] := by
  simp only [procLine] at h
  split at h
  · simp at h
  · split at h
    · simp at h
    · split at h
      · simp at h
      · split at h
        · simp at h
        · split at h
          · simp at h
          · split at h
            · simp at h
            · rename_i hguard
              injection h with hc
              subst hc
              simpa [List.isEmpty_iff] using hguard

lemma procLines_mem_ne_nil (anth : Bool) :
    ∀ (ls : List Chars) (fst : Bool) (y : Chars),
      y ∈ (procLines anth ls fst).1 → y ≠ [] := by
  intro ls
  induction ls with
  | nil => intro fst y hy; simp [procLines] at hy
  | cons l rest ih =>
    intro fst y hy
    rw [procLines] at hy
    cases hstep : procLine anth l fst with
    | skip => rw [hstep] at hy; exact ih _ _ hy
    | done => rw [hstep] at hy; simp at hy
    | yield c =>
      rw [hstep] at hy
      rcases hrec : procLines anth rest false with ⟨out, fst2, dn⟩
      rw [hrec] at hy
      simp only [List.mem_cons] at hy
      rcases hy with hy | hy
      · subst hy; exact procLine_yield_ne_nil anth l fst y hstep
      · exact ih _ _ (by rw [hrec]; exact hy)

lemma generateStreamF_mem_ne_nil (anth : Bool) :
    ∀ (reads : List Chars) (buffer : Chars) (fst : Bool) (y : Chars),
      y ∈ generateStreamF anth buffer fst reads → y ≠ [] := by
  intro reads
  induction reads with
  | nil => intro buffer fst y hy; simp [generateStreamF] at hy
  | cons r rest ih =>
    intro buffer fst y hy
    rw [generateStreamF] at hy
    rcases hsp : splitParts (buffer ++ r) with ⟨ls, buf2⟩
    rw [hsp] at hy
    dsimp only at hy
    rcases hpl : procLines anth ls fst with ⟨out, fst2, dn⟩
    rw [hpl] at hy
    dsimp only at hy
    by_cases hdn : dn
    · subst hdn
      rw [if_pos rfl] at hy
      exact procLines_mem_ne_nil anth ls fst y (by rw [hpl]; exact hy)
    · rw [if_neg hdn] at hy
      rcases List.mem_append.mp hy with hy | hy
      · exact procLines_mem_ne_nil anth ls fst y (by rw [hpl]; exact hy)
      · exact ih buf2 fst2 y hy

lemma geminiStream_mem_ne_nil :
    ∀ (chunks : List Chars) (fst : Bool) (y : Chars),
      y ∈ geminiStream chunks fst → y ≠ [] := by
  intro chunks
  induction chunks with
  | nil => intro fst y hy; simp [geminiStream] at hy
  | cons c rest ih =>
    intro fst y hy
    rw [geminiStream] at hy
    by_cases hemp : (cleanStreamChunk c fst).isEmpty
    · rw [if_pos hemp] at hy
      exact ih _ _ hy
    · rw [if_neg hemp] at hy
      rcases List.mem_cons.mp hy with hy | hy
      · subst hy
        simpa [List.isEmpty_iff] using hemp
      · exact ih _ _ hy

/-- C10: every chunk yielded by the generation/refresh stream — on the
line-oriented provider path and on the Gemini path alike — is non-empty;
and a first chunk whose cleaned text is empty (e.g. a chunk consisting
only of a fence marker) is skipped without consuming the first-chunk
flag, so leading-fence stripping still applies to the next chunk. -/
theorem generateStream_nonempty_and_first_flag :
    (∀ (anth : Bool) (reads : List Chars) (y : Chars),
      y ∈ generateStream anth reads → y ≠ []) ∧
    (∀ (chunks : List Chars) (fst : Bool) (y : Chars),
      y ∈ geminiStream chunks fst → y ≠ []) ∧
    (∀ (anth : Bool) (l : Chars) (rest : List Chars) (parsed : Json) (t : Chars),
      dataMark.isPrefixOf l = true →
      (trimWs (l.drop 6) == "[DONE]".data) = false →
      jsonParse (l.drop 6) = some parsed →
      extractDelta anth parsed = some t →
      t ≠ [] →
      cleanStreamChunk t true = [] →
      procLines anth (l :: rest) true = procLines anth rest true) ∧
    (∀ (c : Chars) (rest : List Chars),
      cleanStreamChunk c true = [] →
      geminiStream (c :: rest) true = geminiStream rest true) := by
  refine ⟨fun anth reads => generateStreamF_mem_ne_nil anth reads [] true,
    geminiStream_mem_ne_nil, ?_, ?_⟩
  · intro anth l rest parsed t hdata hdone hparse hdelta ht hclean
    have hemp : t.isEmpty = false := by
      cases t with
      | nil => exact absurd rfl ht
      | cons a b => rfl
    have hstep : procLine anth l true = .skip := by
      simp only [procLine, hdata, Bool.not_true, Bool.false_eq_true, if_false,
        hdone, hparse, hdelta, hemp, hclean, List.isEmpty_nil, if_true]
    rw [procLines, hstep]
  · intro c rest hclean
    rw [geminiStream, hclean]
    simp

/-- Witness for C10: a stream whose first data line carries a fence-only
delta yields nothing for it and still strips the leading fence of the
next chunk; all yielded chunks of the concrete runs are non-empty. -/
theorem generateStream_nonempty_and_first_flag_witness :
    ("<div>".data ∈
        generateStream false
          ["data: \x7b\"choices\":[\x7b\"delta\":\x7b\"content\":\"```html\"\x7d\x7d]\x7d\ndata: \x7b\"choices\":[\x7b\"delta\":\x7b\"content\":\"```html\\n<div>\"\x7d\x7d]\x7d\n".data] →
      "<div>".data ≠ []) ∧
    procLines false
        ["data: \x7b\"choices\":[\x7b\"delta\":\x7b\"content\":\"```html\"\x7d\x7d]\x7d".data,
         "x".data] true
      = procLines false ["x".data] true ∧
    geminiStream ["```html\n".data, "ok".data] true
      = geminiStream ["ok".data] true := by
  refine ⟨?_, ?_, ?_⟩
  · exact fun hmem =>
      generateStream_nonempty_and_first_flag.1 false _ "<div>".data hmem
  · exact generateStream_nonempty_and_first_flag.2.2.1 false _ ["x".data]
      (.obj [("choices".data,
        .arr [.obj [("delta".data, .obj [("content".data, .str "```html".data)])]])])
      "```html".data rfl rfl rfl rfl (by decide) rfl
  · exact generateStream_nonempty_and_first_flag.2.2.2 "```html\n".data ["ok".data] rfl

/-! ## C8: the line-oriented stream decoder -/

lemma splitParts_no_nl : ∀ s : Chars, '\n' ∉ s → splitParts s = ([], s) := by
  intro s
  induction s with
  | nil => intro _; rfl
  | cons c cs ih =>
    intro h
    have hc : ¬c = '\n' := fun hh => h (by simp [hh])
    have hcs : '\n' ∉ cs := fun hh => h (by simp [hh])
    rw [splitParts, ih hcs]
    simp [hc]

lemma splitParts_snd_no_nl : ∀ s : Chars, '\n' ∉ (splitParts s).2 := by
  intro s
  induction s with
  | nil => simp [splitParts]
  | cons c cs ih =>
    rw [splitParts]
    rcases hsp : splitParts cs with ⟨ls, buf⟩
    rw [hsp] at ih
    by_cases hc : c = '\n'
    · subst hc; simpa using ih
    · simp only [if_neg (fun hh => hc hh)]
      cases ls with
      | nil =>
        simp only []
        intro hmem
        rcases List.mem_cons.mp hmem with hh | hh
        · exact hc hh.symm
        · exact ih hh
      | cons m ms => simpa using ih

lemma splitParts_append : ∀ (x y : Chars),
    splitParts (x ++ y)
      = ((splitParts x).1 ++ (splitParts ((splitParts x).2 ++ y)).1,
         (splitParts ((splitParts x).2 ++ y)).2) := by
  intro x y
  induction x with
  | nil => simp [splitParts]
  | cons c x ih =>
    rw [List.cons_append, splitParts, ih, splitParts]
    rcases hx : splitParts x with ⟨xl, xb⟩
    dsimp only
    by_cases hc : c = '\n'
    · subst hc
      simp
    · simp only [if_neg (fun hh => hc hh)]
      cases xl with
      | nil =>
        rw [List.cons_append, splitParts]
        rcases hi : splitParts (xb ++ y) with ⟨il, ib⟩
        simp only [if_neg (fun hh => hc hh)]
        cases il <;> simp
      | cons m ms => simp

lemma procLines_append (anth : Bool) : ∀ (L1 L2 : List Chars) (fst : Bool),
    procLines anth (L1 ++ L2) fst
      = if (procLines anth L1 fst).2.2
        then procLines anth L1 fst
        else ((procLines anth L1 fst).1
                ++ (procLines anth L2 (procLines anth L1 fst).2.1).1,
              (procLines anth L2 (procLines anth L1 fst).2.1).2) := by
  intro L1
  induction L1 with
  | nil => intro L2 fst; simp [procLines]
  | cons l L1 ih =>
    intro L2 fst
    rw [List.cons_append, procLines, procLines]
    cases hstep : procLine anth l fst with
    | skip => exact ih L2 fst
    | done => simp
    | yield c =>
      dsimp only
      rw [ih L2 false]
      rcases h1 : procLines anth L1 false with ⟨o1, f1, d1⟩
      dsimp only
      by_cases hd : d1
      · subst hd; simp
      · simp only [if_neg hd, hd, Bool.false_eq_true, if_false, List.cons_append]

lemma generateStreamF_eq (anth : Bool) :
    ∀ (reads : List Chars) (buffer : Chars) (fst : Bool), '\n' ∉ buffer →
      generateStreamF anth buffer fst reads
        = (procLines anth (splitParts (buffer ++ reads.flatten)).1 fst).1 := by
  intro reads
  induction reads with
  | nil =>
    intro buffer fst hb
    rw [generateStreamF, List.flatten_nil, List.append_nil, splitParts_no_nl buffer hb]
    rfl
  | cons r rs ih =>
    intro buffer fst hb
    rcases hsp : splitParts (buffer ++ r) with ⟨ls, buf2⟩
    rw [generateStreamF, hsp]
    dsimp only
    rw [List.flatten_cons, ← List.append_assoc,
      splitParts_append (buffer ++ r) rs.flatten, hsp]
    dsimp only
    rw [procLines_append]
    rcases hpl : procLines anth ls fst with ⟨out, f2, dn⟩
    dsimp only
    have hbuf2 : '\n' ∉ buf2 := by
      have := splitParts_snd_no_nl (buffer ++ r)
      rw [hsp] at this
      exact this
    by_cases hd : dn
    · subst hd; simp
    · simp only [hd, Bool.false_eq_true, if_false]
      rw [ih buf2 f2 hbuf2]

lemma char_toNat_ofNat {n : Nat} (h : n < 55296) : (Char.ofNat n).toNat = n := by
  rw [Char.ofNat, dif_pos (Or.inl h)]
  show (UInt32.ofNat' n _).toNat = n
  simp [UInt32.ofNat', UInt32.toNat]

lemma lowerC_tick {c : Char} (h : lowerC c = tickChar) : c = tickChar := by
  unfold lowerC at h
  split at h
  · rename_i hr
    exfalso
    have h1 : 65 ≤ c.toNat := UInt32.le_toNat_of_le (by decide) hr.1
    have h2 : c.toNat ≤ 90 := UInt32.toNat_le_of_le (by decide) hr.2
    have h3 := congrArg Char.toNat h
    rw [char_toNat_ofNat (by omega)] at h3
    have ht : tickChar.toNat = 96 := rfl
    omega
  · exact h

lemma occurs_fence_of_tick_free :
    ∀ t : Chars, (∀ c ∈ t, c ≠ tickChar) → occurs fenceTicks t = false := by
  intro t
  induction t with
  | nil => intro _; rfl
  | cons c cs ih =>
    intro h
    rw [occurs, Bool.or_eq_false_iff]
    refine ⟨?_, ih (fun x hx => h x (by simp [hx]))⟩
    have hc : c ≠ tickChar := h c (by simp)
    have hf : fenceTicks = tickChar :: tickChar :: tickChar :: [] := rfl
    rw [hf]
    simp only [List.isPrefixOf, Bool.and_eq_false_iff, beq_eq_false_iff_ne]
    exact Or.inl (fun hh => hc hh.symm)

lemma stripLeadingPat_id (pat : Chars) (hpat : fenceTicks.isPrefixOf pat = true)
    (t : Chars) (ht : ∀ c ∈ t, c ≠ tickChar) : stripLeadingPat pat t = t := by
  simp only [stripLeadingPat]
  by_cases hcond :
      ((((t.dropWhile isWs).take pat.length).map lowerC) == pat) = true
  · exfalso
    have heq : ((t.dropWhile isWs).take pat.length).map lowerC = pat := by
      simpa using hcond
    obtain ⟨r, hr⟩ := List.isPrefixOf_iff_prefix.mp hpat
    have hf : fenceTicks = tickChar :: tickChar :: tickChar :: [] := rfl
    cases hu : t.dropWhile isWs with
    | nil =>
      rw [hu] at heq
      simp only [List.take_nil, List.map_nil] at heq
      rw [← hr, hf] at heq
      simp at heq
    | cons c0 u1 =>
      rw [hu, ← hr, hf] at heq
      have hlen : ([tickChar, tickChar, tickChar] ++ r).length = (r.length + 2) + 1 := by
        simp only [List.length_append, List.length_cons, List.length_nil]
        omega
      rw [hlen, List.take_succ_cons, List.map_cons] at heq
      have hc0 : lowerC c0 = tickChar := by
        have := congrArg List.head? heq
        simpa using this
      have hc0t : c0 = tickChar := lowerC_tick hc0
      have hmem : c0 ∈ t :=
        (List.dropWhile_suffix isWs).mem (by rw [hu]; simp)
      exact ht c0 hmem hc0t
  · rw [if_neg hcond]

lemma cleanStreamChunk_id_of_tick_free (t : Chars)
    (ht : ∀ c ∈ t, c ≠ tickChar) (b : Bool) : cleanStreamChunk t b = t := by
  have h1 : stripLeadingPat "```html".data t = t :=
    stripLeadingPat_id _ (by decide) t ht
  have h2 : stripLeadingPat "```".data t = t :=
    stripLeadingPat_id _ (by decide) t ht
  have h3 : stripTrailingFence t = t :=
    stripTrailingFence_of_not_occurs t (occurs_fence_of_tick_free t ht)
  cases b <;> simp [cleanStreamChunk, h1, h2, h3]

/-- The per-line relation of C8's order conjunct: `l` is a well-formed
data line whose envelope carries the non-empty, backtick-free delta `t`. -/
def DeltaLine (anth : Bool) (l t : Chars) : Prop :=
  dataMark.isPrefixOf l = true ∧
  (trimWs (l.drop 6) == "[DONE]".data) = false ∧
  (∃ parsed, jsonParse (l.drop 6) = some parsed ∧
    extractDelta anth parsed = some t) ∧
  t ≠ [] ∧ (∀ c ∈ t, c ≠ tickChar)

lemma procLines_yield_all (anth : Bool) :
    ∀ (lines deltas : List Chars) (fst : Bool),
      List.Forall₂ (DeltaLine anth) lines deltas →
      (procLines anth lines fst).1 = deltas := by
  intro lines
  induction lines with
  | nil => intro deltas fst h; cases h; rfl
  | cons l rest ih =>
    intro deltas fst h
    cases h with
    | cons hrel htail =>
      rename_i t ts
      obtain ⟨hdata, hdone, ⟨parsed, hparse, hdelta⟩, hne, htick⟩ := hrel
      have hemp : t.isEmpty = false := by
        cases t with
        | nil => exact absurd rfl hne
        | cons a b => rfl
      have hclean : cleanStreamChunk t fst = t :=
        cleanStreamChunk_id_of_tick_free t htick fst
      have hstep : procLine anth l fst = .yield t := by
        simp only [procLine, hdata, Bool.not_true, Bool.false_eq_true, if_false,
          hdone, hparse, hdelta, hemp, hclean]
      rw [procLines, hstep]
      rcases hrec : procLines anth rest false with ⟨out, f2, dn⟩
      dsimp only
      have hout : out = ts := by
        have := ih ts false htail
        rw [hrec] at this
        exact this
      rw [hout]

/-- C8: the decoder (a) retains an incomplete trailing line across reads —
its yield sequence depends only on the complete lines of the concatenated
reads, in order, with a trailing fragment never processed; (b) ignores
every line not starting with the `data: ` mark; (c) terminates the stream
when a data line's trimmed payload is the `[DONE]` sentinel; (d) skips
data lines whose JSON is malformed instead of failing; and (e) for a run
of well-formed data lines carrying non-empty fence-free deltas, yields
exactly those deltas in arrival order. -/
theorem generateStream_line_protocol :
    (∀ (anth : Bool) (reads : List Chars),
      generateStream anth reads
        = (procLines anth (splitParts reads.flatten).1 true).1) ∧
    (∀ (anth : Bool) (l : Chars) (ls : List Chars) (fst : Bool),
      dataMark.isPrefixOf l = false →
      procLines anth (l :: ls) fst = procLines anth ls fst) ∧
    (∀ (anth : Bool) (l : Chars) (ls : List Chars) (fst : Bool),
      dataMark.isPrefixOf l = true →
      (trimWs (l.drop 6) == "[DONE]".data) = true →
      procLines anth (l :: ls) fst = ([], fst, true)) ∧
    (∀ (anth : Bool) (l : Chars) (ls : List Chars) (fst : Bool),
      dataMark.isPrefixOf l = true →
      (trimWs (l.drop 6) == "[DONE]".data) = false →
      jsonParse (l.drop 6) = none →
      procLines anth (l :: ls) fst = procLines anth ls fst) ∧
    (∀ (anth : Bool) (lines deltas : List Chars) (fst : Bool),
      List.Forall₂ (DeltaLine anth) lines deltas →
      (procLines anth lines fst).1 = deltas) := by
  refine ⟨?_, ?_, ?_, ?_, procLines_yield_all⟩
  · intro anth reads
    exact generateStreamF_eq anth reads [] true (by simp)
  · intro anth l ls fst hdata
    have hstep : procLine anth l fst = .skip := by
      simp only [procLine]
      rw [if_pos (by simp [hdata])]
    rw [procLines, hstep]
  · intro anth l ls fst hdata hdone
    have hstep : procLine anth l fst = .done := by
      simp only [procLine]
      rw [if_neg (by simp [hdata]), if_pos hdone]
    rw [procLines, hstep]
  · intro anth l ls fst hdata hdone hbad
    have hstep : procLine anth l fst = .skip := by
      simp only [procLine]
      rw [if_neg (by simp [hdata]), if_neg (by simp [hdone]), hbad]
    rw [procLines, hstep]

/-- Witness for C8: the line equations and the order conjunct evaluated
at concrete lines (a non-data line, the `[DONE]` sentinel, a malformed
data line, and a well-formed data line with delta `Hi`). -/
theorem generateStream_line_protocol_witness :
    procLines false ["event: x".data] true = procLines false [] true ∧
    procLines false ["data: [DONE]".data, "data: ignored".data] true
      = ([], true, true) ∧
    procLines false ["data: notjson".data] true = procLines false [] true ∧
    (procLines false
        ["data: \x7b\"choices\":[\x7b\"delta\":\x7b\"content\":\"Hi\"\x7d\x7d]\x7d".data]
        true).1 = ["Hi".data] := by
  refine ⟨?_, ?_, ?_, ?_⟩
  · exact generateStream_line_protocol.2.1 false "event: x".data [] true rfl
  · exact generateStream_line_protocol.2.2.1 false "data: [DONE]".data
      ["data: ignored".data] true rfl rfl
  · exact generateStream_line_protocol.2.2.2.1 false "data: notjson".data [] true
      rfl rfl rfl
  · exact generateStream_line_protocol.2.2.2.2 false _ ["Hi".data] true
      (List.Forall₂.cons
        ⟨rfl, rfl,
          ⟨.obj [("choices".data,
            .arr [.obj [("delta".data, .obj [("content".data, .str "Hi".data)])]])],
            rfl, rfl⟩,
          by decide, by decide⟩
        List.Forall₂.nil)

/-! ## C4/C5/C7: the scoring orchestrator's worker pool -/

def isStartEv : OrchEvent → Bool
  | .started _ => true
  | _ => false

/-- The batches that entered the active set, in start order. -/
def startedBatches (evs : List OrchEvent) : List (List WordPressPost) :=
  evs.filterMap (fun e => match e with | .started b => some b | _ => none)

/-- The completion events (`onProgress` calls and logged batch failures). -/
def completionEvs (evs : List OrchEvent) : List OrchEvent :=
  evs.filter (fun e => !(isStartEv e))

lemma take_append_singleton {α : Type} (l : List α) (e : α) (k : Nat) :
    (l ++ [e]).take k = l.take k ∨ (l ++ [e]).take k = l ++ [e] := by
  by_cases h : k ≤ l.length
  · left
    rw [List.take_append_eq_append_take]
    have : k - l.length = 0 := by omega
    rw [this]
    simp
  · right
    apply List.take_of_length_le
    simp
    omega

lemma completionEvent_not_start (proc : List WordPressPost → Except JsError Json)
    (b : List WordPressPost) : isStartEv (completionEvent proc b) = false := by
  rw [completionEvent]
  cases proc b <;> rfl

lemma startedBatches_completion (proc : List WordPressPost → Except JsError Json)
    (b : List WordPressPost) :
    startedBatches [completionEvent proc b] = [] := by
  rw [completionEvent]
  cases proc b <;> rfl

/-- The loop invariant of the worker pool: the active set respects the
concurrency bound, start/completion events balance against the active
set, every event prefix has at most 6 more starts than completions, the
started batches followed by the still-queued ones are exactly the input
batches in order, and the completion events plus the pending batches'
future completion events account for every batch exactly once. -/
structure LoopInv (proc : List WordPressPost → Except JsError Json)
    (allB : List (List WordPressPost)) (s : OrchState) : Prop where
  bound : s.active.length ≤ MAX_CONCURRENT_REQUESTS
  count : (s.events.filter isStartEv).length
      = (completionEvs s.events).length + s.active.length
  prefbound : ∀ k, ((s.events.take k).filter isStartEv).length
      ≤ (completionEvs (s.events.take k)).length + MAX_CONCURRENT_REQUESTS
  started : startedBatches s.events ++ s.queue = allB
  comps : (completionEvs s.events : Multiset OrchEvent)
      + Multiset.map (completionEvent proc) (↑s.queue + ↑s.active)
      = Multiset.map (completionEvent proc) (↑allB)

lemma loopInv_init (proc : List WordPressPost → Except JsError Json)
    (allB : List (List WordPressPost)) : LoopInv proc allB ⟨allB, [], []⟩ := by
  refine ⟨by simp [MAX_CONCURRENT_REQUESTS], by simp [completionEvs],
    fun k => by simp [completionEvs], by simp [startedBatches], ?_⟩
  simp [completionEvs]

lemma topUpF_inv (proc : List WordPressPost → Except JsError Json)
    (allB : List (List WordPressPost)) :
    ∀ (fuel : Nat) (s : OrchState),
      LoopInv proc allB s → LoopInv proc allB (topUpF fuel s) := by
  intro fuel
  induction fuel with
  | zero => intro s h; exact h
  | succ fuel ih =>
    intro s h
    rw [topUpF]
    cases hq : s.queue with
    | nil => exact h
    | cons b rest =>
      dsimp only
      by_cases hlt : s.active.length < MAX_CONCURRENT_REQUESTS
      · rw [if_pos hlt]
        apply ih
        have hstart : startedBatches (s.events ++ [OrchEvent.started b])
            = startedBatches s.events ++ [b] := by
          simp [startedBatches, List.filterMap_append]
        have hcomp : completionEvs (s.events ++ [OrchEvent.started b])
            = completionEvs s.events := by
          simp [completionEvs, List.filter_append, isStartEv]
        have hfilter : ((s.events ++ [OrchEvent.started b]).filter isStartEv).length
            = (s.events.filter isStartEv).length + 1 := by
          simp [List.filter_append, isStartEv]
        refine ⟨?_, ?_, ?_, ?_, ?_⟩
        · simp only [List.length_append, List.length_cons, List.length_nil]
          omega
        · simp only [hcomp, hfilter, List.length_append, List.length_cons,
            List.length_nil, h.count]
          omega
        · intro k
          rcases take_append_singleton s.events (OrchEvent.started b) k with hk | hk
          · rw [hk]; exact h.prefbound k
          · rw [hk, hcomp, hfilter]
            have := h.count
            omega
        · rw [hstart, List.append_assoc, List.singleton_append, ← hq]
          exact h.started
        · rw [hcomp]
          have hcm := h.comps
          rw [hq] at hcm
          rw [← hcm]
          congr 2
          simp only [Multiset.coe_add]
          refine Multiset.coe_eq_coe.mpr ?_
          have p2 : List.Perm (rest ++ (s.active ++ [b]))
              (rest ++ ([b] ++ s.active)) :=
            List.Perm.append_left rest List.perm_append_comm
          have p3 : List.Perm (rest ++ (b :: s.active))
              (b :: (rest ++ s.active)) :=
            List.perm_middle
          exact p2.trans p3
      · rw [if_neg hlt]; exact h

lemma completeOne_inv (proc : List WordPressPost → Except JsError Json)
    (allB : List (List WordPressPost)) (k : Nat) (s : OrchState)
    (h : LoopInv proc allB s) : LoopInv proc allB (completeOne proc k s) := by
  rw [completeOne]
  cases hact : s.active with
  | nil => exact h
  | cons a as =>
    dsimp only
    have hlen : 0 < (a :: as).length := by simp
    have hi : k % (a :: as).length < (a :: as).length := Nat.mod_lt _ hlen
    set i := k % (a :: as).length with hidef
    set x := (a :: as).getD i [] with hxdef
    have hx : x = (a :: as)[i] := by
      rw [hxdef, List.getD_eq_getElem?_getD, List.getElem?_eq_getElem hi]
      rfl
    have hcev : isStartEv (completionEvent proc x) = false :=
      completionEvent_not_start proc x
    have hcompnew : completionEvs (s.events ++ [completionEvent proc x])
        = completionEvs s.events ++ [completionEvent proc x] := by
      simp [completionEvs, List.filter_append, hcev]
    have hfilternew : ((s.events ++ [completionEvent proc x]).filter isStartEv).length
        = (s.events.filter isStartEv).length := by
      simp [List.filter_append, hcev]
    have hstartednew : startedBatches (s.events ++ [completionEvent proc x])
        = startedBatches s.events := by
      have h0 := startedBatches_completion proc x
      simp only [startedBatches, List.filterMap_append] at h0 ⊢
      rw [h0, List.append_nil]
    have herlen : ((a :: as).eraseIdx i).length = (a :: as).length - 1 :=
      List.length_eraseIdx_of_lt hi
    have hdec : a :: as = (a :: as).take i ++ (a :: as)[i] :: (a :: as).drop (i + 1) := by
      conv_lhs => rw [← List.take_append_drop i (a :: as)]
      rw [List.drop_eq_getElem_cons hi]
    have her : (a :: as).eraseIdx i = (a :: as).take i ++ (a :: as).drop (i + 1) :=
      List.eraseIdx_eq_take_drop_succ ..
    have hperm : List.Perm (a :: as) (x :: (a :: as).eraseIdx i) := by
      rw [her, hx]
      conv_lhs => rw [hdec]
      exact List.perm_middle
    have hcount := h.count
    rw [hact] at hcount
    refine ⟨?_, ?_, ?_, ?_, ?_⟩
    · have := h.bound
      rw [hact] at this
      simp only [herlen]
      omega
    · simp only [hfilternew, hcompnew, List.length_append, List.length_cons,
        List.length_nil, herlen]
      simp only [List.length_cons] at hcount ⊢
      omega
    · intro k2
      rcases take_append_singleton s.events (completionEvent proc x) k2 with hk | hk
      · rw [hk]; exact h.prefbound k2
      · rw [hk, hcompnew, hfilternew]
        have hpb := h.prefbound s.events.length
        rw [List.take_of_length_le (Nat.le_refl _)] at hpb
        simp only [List.length_append, List.length_cons, List.length_nil]
        omega
    · rw [hstartednew]; exact h.started
    · have hc := h.comps
      rw [hact] at hc
      have hLms : (↑(a :: as) : Multiset (List WordPressPost))
          = x ::ₘ ↑((a :: as).eraseIdx i) := by
        rw [← Multiset.cons_coe]
        exact Multiset.coe_eq_coe.mpr hperm
      rw [hLms] at hc
      rw [hcompnew, ← hc, ← Multiset.coe_add]
      simp only [Multiset.map_add, Multiset.map_cons, Multiset.coe_singleton]
      rw [← Multiset.singleton_add]
      abel

lemma runLoopF_inv (proc : List WordPressPost → Except JsError Json)
    (sched : Nat → Nat) (allB : List (List WordPressPost)) :
    ∀ (fuel : Nat) (s : OrchState), LoopInv proc allB s →
      LoopInv proc allB (runLoopF proc sched fuel s) := by
  intro fuel
  induction fuel with
  | zero => intro s h; exact h
  | succ fuel ih =>
    intro s h
    rw [runLoopF]
    by_cases hstop : s.queue.isEmpty && s.active.isEmpty
    · rw [if_pos hstop]; exact h
    · rw [if_neg hstop]
      exact ih _ (completeOne_inv proc allB _ _ (topUpF_inv proc allB _ _ h))

lemma topUpF_queue_nil : ∀ (fuel : Nat) (s : OrchState),
    s.queue = [] → topUpF fuel s = s := by
  intro fuel s h
  cases fuel with
  | zero => rfl
  | succ f => rw [topUpF, h]

lemma topUpF_total : ∀ (fuel : Nat) (s : OrchState),
    (topUpF fuel s).queue.length + (topUpF fuel s).active.length
      = s.queue.length + s.active.length := by
  intro fuel
  induction fuel with
  | zero => intro s; rfl
  | succ f ih =>
    intro s
    rw [topUpF]
    cases hq : s.queue with
    | nil => dsimp only; rw [hq]
    | cons b rest =>
      dsimp only
      by_cases hlt : s.active.length < MAX_CONCURRENT_REQUESTS
      · rw [if_pos hlt, ih]
        simp only [List.length_cons, List.length_append, List.length_nil]
        omega
      · rw [if_neg hlt, hq]

lemma topUpF_active_le : ∀ (fuel : Nat) (s : OrchState),
    s.active.length ≤ (topUpF fuel s).active.length := by
  intro fuel
  induction fuel with
  | zero => intro s; exact Nat.le_refl _
  | succ f ih =>
    intro s
    rw [topUpF]
    cases hq : s.queue with
    | nil => exact Nat.le_refl _
    | cons b rest =>
      dsimp only
      by_cases hlt : s.active.length < MAX_CONCURRENT_REQUESTS
      · rw [if_pos hlt]
        have := ih ⟨rest, s.active ++ [b], s.events ++ [OrchEvent.started b]⟩
        simp only [List.length_append, List.length_cons, List.length_nil] at this
        omega
      · rw [if_neg hlt]

lemma topUp_active_ne_nil (s : OrchState)
    (h : 0 < s.queue.length + s.active.length) : (topUp s).active ≠ [] := by
  rw [topUp]
  cases hq : s.queue with
  | nil =>
    rw [topUpF_queue_nil _ _ hq]
    rw [hq] at h
    simp only [List.length_nil, Nat.zero_add] at h
    exact List.ne_nil_of_length_pos h
  | cons b rest =>
    have hlen : (b :: rest).length = rest.length + 1 := rfl
    rw [hlen, topUpF, hq]
    dsimp only
    by_cases hlt : s.active.length < MAX_CONCURRENT_REQUESTS
    · rw [if_pos hlt]
      apply List.ne_nil_of_length_pos
      have hle := topUpF_active_le rest.length
        ⟨rest, s.active ++ [b], s.events ++ [OrchEvent.started b]⟩
      have hpos : 0 < (s.active ++ [b]).length := by simp
      exact Nat.lt_of_lt_of_le hpos hle
    · rw [if_neg hlt]
      apply List.ne_nil_of_length_pos
      simp only [MAX_CONCURRENT_REQUESTS, Nat.not_lt] at hlt
      omega

lemma completeOne_total (proc : List WordPressPost → Except JsError Json)
    (k : Nat) (s : OrchState) (hne : s.active ≠ []) :
    (completeOne proc k s).queue.length + (completeOne proc k s).active.length + 1
      = s.queue.length + s.active.length := by
  rw [completeOne]
  cases hact : s.active with
  | nil => exact absurd hact hne
  | cons a as =>
    dsimp only
    rw [List.length_eraseIdx_of_lt (Nat.mod_lt _ (by simp))]
    simp only [List.length_cons]
    omega

lemma runLoopF_drain (proc : List WordPressPost → Except JsError Json)
    (sched : Nat → Nat) : ∀ (fuel : Nat) (s : OrchState),
    s.queue.length + s.active.length ≤ fuel →
    (runLoopF proc sched fuel s).queue = [] ∧
      (runLoopF proc sched fuel s).active = [] := by
  intro fuel
  induction fuel with
  | zero =>
    intro s h
    have h0 : runLoopF proc sched 0 s = s := rfl
    rw [h0]
    exact ⟨List.eq_nil_of_length_eq_zero (by omega),
      List.eq_nil_of_length_eq_zero (by omega)⟩
  | succ fuel ih =>
    intro s h
    rw [runLoopF]
    by_cases hstop : s.queue.isEmpty && s.active.isEmpty
    · rw [if_pos hstop]
      simp only [Bool.and_eq_true, List.isEmpty_iff] at hstop
      exact hstop
    · rw [if_neg hstop]
      apply ih
      have hpos : 0 < s.queue.length + s.active.length := by
        by_contra hcon
        have hq : s.queue = [] := List.eq_nil_of_length_eq_zero (by omega)
        have ha : s.active = [] := List.eq_nil_of_length_eq_zero (by omega)
        exact hstop (by simp [hq, ha])
      have h1 : (topUp s).active ≠ [] := topUp_active_ne_nil s hpos
      have h2 := completeOne_total proc (sched fuel) (topUp s) h1
      have h3 : (topUp s).queue.length + (topUp s).active.length
          = s.queue.length + s.active.length := by
        rw [topUp]; exact topUpF_total _ _
      omega

/-- The record ids carried by an `onProgress` payload (`scoredPosts`
array): the `id` fields of its elements. -/
def recordIds (payload : Json) : List Int :=
  match payload with
  | .arr recs => recs.filterMap (fun r =>
      match r.getField "id".data with
      | some (.num n) => some n
      | _ => none)
  | _ => []

/-- C7: in every run of `getOpportunityScores`, every prefix of the event
trace has at most `MAX_CONCURRENT_REQUESTS` (6) more batch starts than
batch completions (a batch is in flight exactly between its start and its
completion event, so at most 6 are ever in flight simultaneously); every
batch is eventually started, in input order; and 20 posts make exactly 3
batches. -/
theorem getOpportunityScores_concurrency_bound
    (posts : List WordPressPost)
    (providerText : List WordPressPost → Nat → Except JsError Chars)
    (sched : Nat → Nat) :
    (∀ k, (((getOpportunityScores posts providerText sched).events.take k).filter
          isStartEv).length
        ≤ (completionEvs
            ((getOpportunityScores posts providerText sched).events.take k)).length
          + MAX_CONCURRENT_REQUESTS) ∧
    startedBatches (getOpportunityScores posts providerText sched).events
      = makeBatches posts ∧
    (posts.length = 20 → (makeBatches posts).length = 3) := by
  have hG : getOpportunityScores posts providerText sched
      = runLoopF (fun b => processBatch (providerText b)) sched
          (makeBatches posts).length ⟨makeBatches posts, [], []⟩ := rfl
  have hinv := runLoopF_inv (fun b => processBatch (providerText b)) sched
    (makeBatches posts) (makeBatches posts).length ⟨makeBatches posts, [], []⟩
    (loopInv_init _ _)
  have hdrain := runLoopF_drain (fun b => processBatch (providerText b)) sched
    (makeBatches posts).length ⟨makeBatches posts, [], []⟩ (by simp)
  refine ⟨fun k => by rw [hG]; exact hinv.prefbound k, ?_, ?_⟩
  · have hst := hinv.started
    rw [hdrain.1, List.append_nil] at hst
    rw [hG]
    exact hst
  · intro h20
    rw [makeBatches_length, h20]

/-- Witness for C7: at a concrete 20-post collection the partition has
exactly 3 batches, and all of them are started by the run. -/
theorem getOpportunityScores_concurrency_bound_witness :
    (makeBatches ((List.range 20).map (fun i : Nat => WordPressPost.mk (Int.ofNat i) []))).length = 3 ∧
    startedBatches (getOpportunityScores
        ((List.range 20).map (fun i : Nat => WordPressPost.mk (Int.ofNat i) []))
        (fun _ _ => .error ⟨some 500, []⟩) (fun _ => 0)).events
      = makeBatches ((List.range 20).map (fun i : Nat => WordPressPost.mk (Int.ofNat i) [])) := by
  refine ⟨?_, ?_⟩
  · exact (getOpportunityScores_concurrency_bound
      ((List.range 20).map (fun i : Nat => WordPressPost.mk (Int.ofNat i) []))
      (fun _ _ => .error ⟨some 500, []⟩) (fun _ => 0)).2.2
      (by rw [List.length_map, List.length_range])
  · exact (getOpportunityScores_concurrency_bound
      ((List.range 20).map (fun i : Nat => WordPressPost.mk (Int.ofNat i) []))
      (fun _ _ => .error ⟨some 500, []⟩) (fun _ => 0)).2.1

/-- C4: `getOpportunityScores` always runs to completion — the final
state has drained its queue and active set no matter how many batches
fail, so a failed batch never rejects the run — and its completion events
account for each batch exactly once: the batch's `onProgress` call with
that batch's parsed record list when its call chain succeeded, or a
logged `failed` drop (omitted from progress) when it failed after
retries. -/
theorem getOpportunityScores_partial_failure
    (posts : List WordPressPost)
    (providerText : List WordPressPost → Nat → Except JsError Chars)
    (sched : Nat → Nat) :
    (getOpportunityScores posts providerText sched).queue = [] ∧
    (getOpportunityScores posts providerText sched).active = [] ∧
    (↑(completionEvs (getOpportunityScores posts providerText sched).events)
        : Multiset OrchEvent)
      = Multiset.map (completionEvent (fun b => processBatch (providerText b)))
          ↑(makeBatches posts) := by
  have hG : getOpportunityScores posts providerText sched
      = runLoopF (fun b => processBatch (providerText b)) sched
          (makeBatches posts).length ⟨makeBatches posts, [], []⟩ := rfl
  have hinv := runLoopF_inv (fun b => processBatch (providerText b)) sched
    (makeBatches posts) (makeBatches posts).length ⟨makeBatches posts, [], []⟩
    (loopInv_init _ _)
  have hdrain := runLoopF_drain (fun b => processBatch (providerText b)) sched
    (makeBatches posts).length ⟨makeBatches posts, [], []⟩ (by simp)
  refine ⟨by rw [hG]; exact hdrain.1, by rw [hG]; exact hdrain.2, ?_⟩
  have hc := hinv.comps
  rw [hdrain.1, hdrain.2] at hc
  rw [hG]
  simpa using hc

/-- C5 counterexample: for a single post with id 1 and a provider
response carrying a record with foreign id 999, the orchestrator emits
an `onProgress` payload whose only record id is 999, which is not an id
of any post in the input batch — the code forwards `parsed.posts`
without validating ids. -/
theorem getOpportunityScores_foreign_id_counterexample :
    (getOpportunityScores [⟨1, []⟩]
        (fun _ _ => .ok "\x7b\"posts\": [\x7b\"id\": 999, \"opportunityScore\": 50, \"opportunityRationale\": \"x\"\x7d]\x7d".data)
        (fun _ => 0)).events
      = [OrchEvent.started [⟨1, []⟩],
         OrchEvent.progressed [⟨1, []⟩]
           (Json.arr [Json.obj [("id".data, Json.num 999),
             ("opportunityScore".data, Json.num 50),
             ("opportunityRationale".data, Json.str "x".data)]])] ∧
    recordIds (Json.arr [Json.obj [("id".data, Json.num 999),
        ("opportunityScore".data, Json.num 50),
        ("opportunityRationale".data, Json.str "x".data)]]) = [999] ∧
    ([(⟨1, []⟩ : WordPressPost)].map WordPressPost.id = [1]) ∧
    ¬((999 : Int) ∈ ([1] : List Int)) :=
  ⟨rfl, rfl, rfl, by decide⟩

/-- C5 (amended): when every successful provider response only carries
ids of posts in its input batch (the echo format the prompt instructs),
every record id the orchestrator emits through `onProgress` is the id of
some post of the input collection; the orchestrator itself performs no
filtering, so this holds only under that assumption on the provider. -/
theorem getOpportunityScores_ids_amended
    (posts : List WordPressPost)
    (providerText : List WordPressPost → Nat → Except JsError Chars)
    (sched : Nat → Nat)
    (hgood : ∀ b ∈ makeBatches posts, ∀ payload,
      processBatch (providerText b) = .ok payload →
      ∀ i ∈ recordIds payload, ∃ p ∈ b, p.id = i) :
    ∀ (b : List WordPressPost) (payload : Json),
      OrchEvent.progressed b payload
          ∈ (getOpportunityScores posts providerText sched).events →
      ∀ i ∈ recordIds payload, ∃ p ∈ posts, p.id = i := by
  have hG : getOpportunityScores posts providerText sched
      = runLoopF (fun b => processBatch (providerText b)) sched
          (makeBatches posts).length ⟨makeBatches posts, [], []⟩ := rfl
  have hinv := runLoopF_inv (fun b => processBatch (providerText b)) sched
    (makeBatches posts) (makeBatches posts).length ⟨makeBatches posts, [], []⟩
    (loopInv_init _ _)
  have hdrain := runLoopF_drain (fun b => processBatch (providerText b)) sched
    (makeBatches posts).length ⟨makeBatches posts, [], []⟩ (by simp)
  have hc := hinv.comps
  rw [hdrain.1, hdrain.2] at hc
  simp only [Multiset.coe_nil, Multiset.map_zero, add_zero] at hc
  intro b payload hmem i hid
  have hmem2 : OrchEvent.progressed b payload
      ∈ completionEvs (getOpportunityScores posts providerText sched).events :=
    List.mem_filter.mpr ⟨hmem, rfl⟩
  rw [hG] at hmem2
  have hmm : OrchEvent.progressed b payload
      ∈ Multiset.map (completionEvent (fun b' => processBatch (providerText b')))
          (↑(makeBatches posts)) := by
    rw [← hc]
    exact Multiset.mem_coe.mpr hmem2
  obtain ⟨b', hb', hfb⟩ := Multiset.mem_map.mp hmm
  have hb'mem : b' ∈ makeBatches posts := Multiset.mem_coe.mp hb'
  cases hpb : processBatch (providerText b') with
  | error e =>
    rw [completionEvent, hpb] at hfb
    exact absurd hfb (by simp)
  | ok pl =>
    rw [completionEvent, hpb] at hfb
    injection hfb with h1 h2
    subst h1
    subst h2
    obtain ⟨p, hp, hpi⟩ := hgood b' hb'mem pl hpb i hid
    exact ⟨p, mem_of_mem_makeBatches hb'mem hp, hpi⟩

/-- Witness for C5's amended statement: a single-post run whose provider
echoes the input id (1) satisfies the provider-echo hypothesis, and the
id carried by the emitted progress payload is the id of an input post. -/
theorem getOpportunityScores_ids_amended_witness :
    ∃ p ∈ [(⟨1, []⟩ : WordPressPost)], p.id = 1 := by
  have hVr : recordIds (Json.arr [Json.obj [("id".data, Json.num 1),
      ("opportunityScore".data, Json.num 95),
      ("opportunityRationale".data, Json.str "Great".data)]]) = [1] := rfl
  refine getOpportunityScores_ids_amended [⟨1, []⟩]
    (fun _ _ => .ok "\x7b\"posts\": [\x7b\"id\": 1, \"opportunityScore\": 95, \"opportunityRationale\": \"Great\"\x7d]\x7d".data)
    (fun _ => 0) ?_ [⟨1, []⟩]
    (Json.arr [Json.obj [("id".data, Json.num 1),
      ("opportunityScore".data, Json.num 95),
      ("opportunityRationale".data, Json.str "Great".data)]])
    ?_ 1 (by rw [hVr]; exact List.mem_singleton.mpr rfl)
  · intro b hb payload hpb
    have hmk : makeBatches [(⟨1, []⟩ : WordPressPost)] = [[⟨1, []⟩]] := rfl
    rw [hmk] at hb
    have hb' : b = [(⟨1, []⟩ : WordPressPost)] := by simpa using hb
    subst hb'
    have hval : processBatch (fun _ : Nat =>
        (.ok "\x7b\"posts\": [\x7b\"id\": 1, \"opportunityScore\": 95, \"opportunityRationale\": \"Great\"\x7d]\x7d".data
          : Except JsError Chars))
        = .ok (Json.arr [Json.obj [("id".data, Json.num 1),
            ("opportunityScore".data, Json.num 95),
            ("opportunityRationale".data, Json.str "Great".data)]]) := rfl
    rw [hval] at hpb
    injection hpb with hpl
    subst hpl
    intro i hi
    rw [hVr] at hi
    have hi1 : i = 1 := by simpa using hi
    subst hi1
    exact ⟨⟨1, []⟩, by simp, rfl⟩
  · have hev : (getOpportunityScores [(⟨1, []⟩ : WordPressPost)]
        (fun _ _ => .ok "\x7b\"posts\": [\x7b\"id\": 1, \"opportunityScore\": 95, \"opportunityRationale\": \"Great\"\x7d]\x7d".data)
        (fun _ => 0)).events
        = [OrchEvent.started [⟨1, []⟩],
           OrchEvent.progressed [⟨1, []⟩]
             (Json.arr [Json.obj [("id".data, Json.num 1),
               ("opportunityScore".data, Json.num 95),
               ("opportunityRationale".data, Json.str "Great".data)]])] := rfl
    rw [hev]
    exact List.mem_cons_of_mem _ (List.mem_singleton.mpr rfl)

end WpSnippet
